import Mathlib

/-!
Verification of the documentation-extraction core of `hyprls`
(`parser/data/load.go`) against its natural-language specification.

The Go code operates on an HTML tree obtained by normalizing an embedded
markdown document with goldmark and parsing it with `soup`.  In that
normalized output every heading, paragraph and table is a direct child of
the body, so a document is modelled here as the list of its top-level
block nodes (`List Node`), in document order; tables, rows and cells keep
their nested structure inside a `Node`.  Sibling positions are list
indices.  Machinery from the `soup` library (`FindAll`, `FullText`,
`Text`, `FindPrevElementSibling`, `FindNextElementSibling`, `Attrs`) is
embedded below next to the Go functions that use it.
-/

/-- Node of the normalized HTML tree: an element with a tag, an attribute
list and children, or a text node. `soup.Root.NodeValue` is the tag for an
element node and the raw text for a text node. -/
inductive Node where
  | elem (tag : String) (attrs : List (String × String)) (children : List Node)
  | text (s : String)
deriving Repr

/-- Tag of an element node; `""` for a text node (text nodes are never
treated as elements by the sibling walks below). -/
def Node.tagOf : Node → String
  | .elem t _ _ => t
  | .text _ => ""

/-- True for element nodes: the nodes returned by soup's
`FindPrevElementSibling` / `FindNextElementSibling`. -/
def isElemNode : Node → Bool
  | .elem _ _ _ => true
  | .text _ => false

/-- Attribute list of a node (`soup.Root.Attrs`); empty for text nodes. -/
def Node.attrsOf : Node → List (String × String)
  | .elem _ a _ => a
  | .text _ => []

mutual
/-- Embedding of `soup.Root.FullText`: concatenation of all text
descendants of a node, in document order. -/
def fullText : Node → String
  | .text s => s
  | .elem _ _ cs => fullTextList cs

/-- FullText of a list of siblings, concatenated in order. -/
def fullTextList : List Node → String
  | [] => ""
  | n :: rest => fullText n ++ fullTextList rest
end

mutual
/-- Embedding of `soup.Root.FindAll(tag)`: all element descendants with
the given tag, in document (pre-order) order.  The searched root itself is
never a match at the call sites in `load.go` (a document is searched for
`table`, a table for `tr`/`th`, a row for `td`), so only descendants are
collected. -/
def findAllNode (tag : String) : Node → List Node
  | .text _ => []
  | .elem _ _ cs => findAllList tag cs

/-- FindAll over a list of sibling subtrees, in document order. -/
def findAllList (tag : String) : List Node → List Node
  | [] => []
  | n :: rest =>
    (match n with
     | .elem t _ _ => if t == tag then [n] else []
     | .text _ => []) ++ findAllNode tag n ++ findAllList tag rest
end

/-- Characters matched by Go's regexp class `\s` (`[\t\n\f\r ]`), used by
soup's `Text()` to skip whitespace-only text nodes. -/
def goReSpace (c : Char) : Bool :=
  c == ' ' || c == '\t' || c == '\n' || c == '\x0c' || c == '\r'

/-- A string matching Go's `^\s+$`: nonempty and all whitespace. -/
def isWhitespaceOnly (s : String) : Bool :=
  !s.isEmpty && s.data.all goReSpace

/-- First direct text child that is not whitespace-only, in order —
the scan performed by `soup.Root.Text()`. -/
def firstText : List Node → String
  | [] => ""
  | .text s :: rest => if isWhitespaceOnly s then firstText rest else s
  | .elem _ _ _ :: rest => firstText rest

/-- Embedding of `soup.Root.Text()`: the first non-whitespace direct text
child of the node, or `""`. -/
def nodeText : Node → String
  | .elem _ _ cs => firstText cs
  | .text _ => ""

/-- Characters trimmed by Go's `strings.TrimSpace` (`unicode.IsSpace`
restricted to the characters that can occur in the wiki sources). -/
def goIsSpace (c : Char) : Bool :=
  c == ' ' || c == '\t' || c == '\n' || c == '\x0b' || c == '\x0c' || c == '\r' ||
  c == '\u0085' || c == '\u00A0'

/-- Embedding of `strings.TrimSpace`. -/
def goTrimSpace (s : String) : String :=
  String.mk (((s.data.dropWhile goIsSpace).reverse.dropWhile goIsSpace).reverse)

/-- Digit run parser underlying `strconv.Atoi`. -/
def parseDigitsAux : List Char → Nat → Option Nat
  | [], acc => some acc
  | c :: rest, acc =>
    if c.isDigit then parseDigitsAux rest (acc * 10 + (c.toNat - 48)) else none

/-- Nonempty all-digit string to its value. -/
def parseDigits : List Char → Option Nat
  | [] => none
  | l => parseDigitsAux l 0

/-- Embedding of `strconv.Atoi`: optional sign followed by a nonempty
digit run (overflow is irrelevant at the call sites, which parse a single
heading-level digit). `none` models the error return, which `load.go`
turns into a panic. -/
def goAtoi (s : String) : Option Int :=
  match s.data with
  | [] => none
  | '+' :: rest => (parseDigits rest).map Int.ofNat
  | '-' :: rest => (parseDigits rest).map (fun n => -(Int.ofNat n : Int))
  | l => (parseDigits l).map Int.ofNat

/-- The regexp `^h[1-6]$` from `isHeading` / `backtrackToNearestHeader`. -/
def isHeadingTag (t : String) : Bool :=
  t == "h1" || t == "h2" || t == "h3" || t == "h4" || t == "h5" || t == "h6"

/-- Failure observable of the Go code: a runtime panic (from `panic(err)`
or a nil-pointer dereference after walking off the sibling list). -/
inductive GoErr where
  | panic
deriving Repr, DecidableEq

/-- Embedding of `headingLevel`: `strconv.Atoi(heading.NodeValue[1:])`,
panicking when the conversion fails. -/
def headingLevel (tag : String) : Except GoErr Int :=
  match goAtoi (tag.drop 1) with
  | some lv => .ok lv
  | none => .error .panic

/-- Embedding of the Go struct `VariableDefinition` (fields `Name`,
`Description`, `Type`, `Default`); the `Type` field is named `VType` here
because `Type` is a Lean keyword. -/
structure VariableDefinition where
  Name : String
  Description : String
  VType : String
  Default : String
deriving Repr, DecidableEq

/-- Embedding of the Go struct `SectionDefinition` (fields `Path`,
`Variables`, `Subsections`); an inductive because the `Subsections` field
is recursive. -/
inductive SectionDefinition where
  | mk (Path : List String) (Variables : List VariableDefinition)
       (Subsections : List SectionDefinition)
deriving Repr

/-- Path field accessor. -/
def SectionDefinition.Path : SectionDefinition → List String
  | .mk p _ _ => p

/-- Variables field accessor. -/
def SectionDefinition.Variables : SectionDefinition → List VariableDefinition
  | .mk _ v _ => v

/-- Subsections field accessor. -/
def SectionDefinition.Subsections : SectionDefinition → List SectionDefinition
  | .mk _ _ s => s

/-- Modelled from the spec: the method `SectionDefinition.Name()` is
declared outside the provided source files; per the spec a Section's
identity for hierarchy purposes is `Path[last]`.  The `getD ""` default is
unreachable in the pipeline below, because every produced `Path` is
nonempty. -/
def SectionDefinition.Name (s : SectionDefinition) : String :=
  s.Path.getLast?.getD ""

/-- Heading test at a top-level position: `some tag` when the node at
index `i` is an element whose tag matches `^h[1-6]$`, else `none`. -/
def headingTagAt (doc : List Node) (i : Nat) : Option String :=
  match doc.get? i with
  | some (.elem t _ _) => if isHeadingTag t then some t else none
  | _ => none

/-- FullText of the node at a top-level position (`""` out of range). -/
def fullTextAt (doc : List Node) (i : Nat) : String :=
  match doc.get? i with
  | some n => fullText n
  | none => ""

/-- Embedding of `backtrackToNearestHeader`: starting from the element at
index `i`, return the index of the nearest heading at or before `i`.  The
Go function tests the current node against `^h[1-6]$` and otherwise
recurses on `FindPrevElementSibling()`; stepping one position at a time is
equivalent, because the skipped text nodes never match the heading test.
When no heading exists at or before `i`, the Go recursion reaches a node
with no previous element sibling, receives soup's error `Root` (nil
pointer) and dereferences it on the next step — a panic, modelled as
`.error .panic`. -/
def backtrackToNearestHeader (doc : List Node) : Nat → Except GoErr Nat
  | 0 =>
    match headingTagAt doc 0 with
    | some _ => .ok 0
    | none => .error .panic
  | j + 1 =>
    match headingTagAt doc (j + 1) with
    | some _ => .ok (j + 1)
    | none => backtrackToNearestHeader doc j

/-- Embedding of `tablePath`, with the path accumulated while walking
backwards.  The Go function finds the nearest heading `h`, parses its
level (`strconv.Atoi(h.NodeValue[1:])`, panicking on failure), returns
`[h.FullText()]` when `level <= headingRootLevel`, and otherwise recurses
on `h.FindPrevElementSibling()` and appends `h.FullText()` to the result.
Appending after the recursion returns is the same as accumulating the
titles in front while scanning downwards, and recursing on the previous
element sibling is the same as continuing the downward scan one position
below `h` (text siblings never match the heading test; when `h` has no
previous element sibling the Go code panics on soup's error `Root`, and
the downward scan likewise reaches position 0 without a heading). -/
def tablePathAux (doc : List Node) (L : Int) : Nat → List String → Except GoErr (List String)
  | 0, acc =>
    match headingTagAt doc 0 with
    | some t =>
      match goAtoi (t.drop 1) with
      | none => .error .panic
      | some lv =>
        if lv ≤ L then .ok (fullTextAt doc 0 :: acc) else .error .panic
    | none => .error .panic
  | j + 1, acc =>
    match headingTagAt doc (j + 1) with
    | some t =>
      match goAtoi (t.drop 1) with
      | none => .error .panic
      | some lv =>
        if lv ≤ L then .ok (fullTextAt doc (j + 1) :: acc)
        else tablePathAux doc L j (fullTextAt doc (j + 1) :: acc)
    | none => tablePathAux doc L j acc

/-- The ancestor-title path of the table at top-level index `i`. -/
def tablePath (doc : List Node) (L : Int) (i : Nat) : Except GoErr (List String) :=
  tablePathAux doc L i []

/-- Embedding of `tableHeaderCells`: the `FullText` of every `th` cell of
the table, in document order. -/
def tableHeaderCells (table : Node) : List String :=
  (findAllNode "th" table).map fullText

/-- Embedding of `arraysEqual`: equal lengths and elementwise equality of
the `strings.TrimSpace`d entries. -/
def arraysEqual (a b : List String) : Bool :=
  a.length == b.length &&
    (a.zip b).all (fun p => goTrimSpace p.1 == goTrimSpace p.2)

/-- The header row the extractor looks for. -/
def expectedHeader : List String := ["name", "description", "type", "default"]

/-- Variables from the rows after the header row: a row contributes one
`VariableDefinition` exactly when it has exactly 4 `td` cells
(`len(cells) != 4` rows are skipped), the cell texts becoming
`Name, Description, Type, Default` in order. -/
def rowVariables : List Node → List VariableDefinition
  | [] => []
  | row :: rest =>
    match findAllNode "td" row with
    | [c0, c1, c2, c3] =>
      ⟨fullText c0, fullText c1, fullText c2, fullText c3⟩ :: rowVariables rest
    | _ => rowVariables rest

/-- The row scan of `parseDocumentationMarkdown`: `table.FindAll("tr")[1:]`
panics when the table has no `tr` at all (slicing an empty Go slice from
index 1), and otherwise the rows after the first are scanned in order. -/
def tableVariables (table : Node) : Except GoErr (List VariableDefinition) :=
  match findAllNode "tr" table with
  | [] => .error .panic
  | _ :: rows => .ok (rowVariables rows)

/-- Top-level indices holding a `table` element, in document order — the
tables found by `document.FindAll("table")` (in the goldmark-normalized
wiki sources every table is a top-level block). -/
def tableIdxs (doc : List Node) : List Nat :=
  (List.range doc.length).filter (fun i =>
    match doc.get? i with
    | some (.elem "table" _ _) => true
    | _ => false)

/-- Whether the node qualifies as a documentation table:
`arraysEqual(tableHeaderCells(table), ["name","description","type","default"])`. -/
def qualifiesTable (table : Node) : Bool :=
  arraysEqual (tableHeaderCells table) expectedHeader

/-- Processing of one table in the extraction loop: non-qualifying tables
yield nothing; a qualifying table yields one section whose `Path` comes
from `tablePath` and whose `Variables` come from the row scan (the path is
computed first, as in the Go struct literal). -/
def sectionForTable (doc : List Node) (L : Int) (i : Nat) : Except GoErr (Option SectionDefinition) :=
  match doc.get? i with
  | some table =>
    if qualifiesTable table then
      match tablePath doc L i with
      | .error e => .error e
      | .ok path =>
        match tableVariables table with
        | .error e => .error e
        | .ok vars => .ok (some (.mk path vars []))
    else .ok none
  | none => .ok none

/-- The extraction loop over the given table indices, in order; a panic
while processing any table aborts the whole pass. -/
def sectionsOfTablesAux (doc : List Node) (L : Int) : List Nat → Except GoErr (List SectionDefinition)
  | [] => .ok []
  | i :: is =>
    match sectionForTable doc L i with
    | .error e => .error e
    | .ok none => sectionsOfTablesAux doc L is
    | .ok (some s) =>
      match sectionsOfTablesAux doc L is with
      | .error e => .error e
      | .ok rest => .ok (s :: rest)

/-- The flat section list of `parseDocumentationMarkdown`, before
subsection attachment. -/
def sectionsOfTables (doc : List Node) (L : Int) : Except GoErr (List SectionDefinition) :=
  sectionsOfTablesAux doc L (tableIdxs doc)

/-- Embedding of `SectionDefinition.AttachSubsections`: the sections of
the list whose `Path` has length other than 1 and whose `Path[0]` equals
`s.Name()`, in list order, become `s`'s subsections.  (`Path[0]` of a
zero-length path would panic in Go; every produced path is nonempty, and
the `getD ""` default is unreachable.) -/
def SectionDefinition.AttachSubsections (s : SectionDefinition)
    (sections : List SectionDefinition) : SectionDefinition :=
  .mk s.Path s.Variables
    (sections.filter (fun sec =>
      !(sec.Path.length == 1) && (sec.Path.head?.getD "" == s.Name)))

/-- The attachment pass at the end of `parseDocumentationMarkdown`: every
root section (path length 1) receives its subsections.  The Go loop
updates `sections[i]` in place while ranging over the list, but only
root entries are replaced and the attachment predicate only inspects
non-root entries, so attaching against the original list is
observationally identical. -/
def attachPass (secs : List SectionDefinition) : List SectionDefinition :=
  secs.map (fun s => if s.Path.length == 1 then s.AttachSubsections secs else s)

/-- Embedding of `parseDocumentationMarkdown` on an already-normalized
document. -/
def parseDocumentationMarkdown (doc : List Node) (L : Int) : Except GoErr (List SectionDefinition) :=
  match sectionsOfTables doc L with
  | .error e => .error e
  | .ok secs => .ok (attachPass secs)

/-- Replacement of a path's first component — the observable effect of the
Go assignment `sections[i].Path[0] = rootSectionName` (a zero-length path
would panic; unreachable, every produced path is nonempty). -/
def setHead (name : String) : List String → List String
  | [] => []
  | _ :: tl => name :: tl

/-- The rename applied to one section by
`parseDocumentationMarkdownWithRootSectionName`.  The Go loop assigns
`sections[i].Path[0]` through the slice header, and each subsection stored
inside a root's `Subsections` shares its `Path` backing array with the
corresponding top-level entry of the same list, so the write is also
observable through `Subsections`: both the top-level paths and the paths
inside `Subsections` get the new first component. -/
def renameRootIn (name : String) (s : SectionDefinition) : SectionDefinition :=
  .mk (setHead name s.Path) s.Variables
    (s.Subsections.map (fun sub => .mk (setHead name sub.Path) sub.Variables sub.Subsections))

/-- Embedding of `parseDocumentationMarkdownWithRootSectionName`. -/
def parseDocumentationMarkdownWithRootSectionName (doc : List Node) (L : Int)
    (name : String) : Except GoErr (List SectionDefinition) :=
  match parseDocumentationMarkdown doc L with
  | .error e => .error e
  | .ok secs => .ok (secs.map (renameRootIn name))

/-- Serialization of attributes, part of the `html.Render` abstraction. -/
def renderAttrs : List (String × String) → String
  | [] => ""
  | (k, v) :: rest => " " ++ k ++ "=\x22" ++ v ++ "\x22" ++ renderAttrs rest

mutual
/-- Abstraction of `soup.Root.HTML()` (`html.Render`) on a well-formed
node: the node serialized back to markup.  Escaping and void-element
special cases are elided; the properties below depend only on which
siblings' serializations appear and in what order. -/
def renderHTML : Node → String
  | .text s => s
  | .elem t attrs cs =>
    "<" ++ t ++ renderAttrs attrs ++ ">" ++ renderHTMLList cs ++ "</" ++ t ++ ">"

/-- Serialization of a list of nodes, concatenated in order. -/
def renderHTMLList : List Node → String
  | [] => ""
  | n :: rest => renderHTML n ++ renderHTMLList rest
end

/-- Embedding of the recursion of `htmlBetweenHeadingAndNextHeading` over
the siblings after the cursor, given the level of the matched heading.

The Go body computes `next := element.FindNextElementSibling()`; walking
the sibling list one node at a time and skipping text nodes is the same
walk.  Correspondence of the branches:
* list exhausted — `FindNextElementSibling` returns soup's error `Root`
  (nil pointer, `NodeValue == ""`): `isHeading(next)` is false, then
  `next.HTML()` panics on the nil pointer, the deferred `recover` catches
  it and the frame returns the zero value `""`, modelled `.ok ""`;
* `next` a heading whose level equals the matched heading's: return `""`;
* `next` a heading tag whose level digit fails to parse — impossible for
  a tag matching `^h[1-6]$`, kept as `.error .panic` for faithfulness
  (`headingLevel` panics before the `defer` is installed);
* otherwise `rendered := next.HTML()` — `render` returns `none` when
  serialization panics, in which case the deferred `recover` makes the
  whole frame return `""`, so the recursion for the remaining siblings
  never runs — and `rendered` is prepended to the recursive result. -/
def captureRun (render : Node → Option String) (hLevel : Int) : List Node → Except GoErr String
  | [] => .ok ""
  | .text _ :: rest => captureRun render hLevel rest
  | .elem t a cs :: rest =>
    if isHeadingTag t then
      match headingLevel t with
      | .error e => .error e
      | .ok lv =>
        if lv == hLevel then .ok ""
        else
          match render (.elem t a cs) with
          | none => .ok ""
          | some s =>
            match captureRun render hLevel rest with
            | .error e => .error e
            | .ok r => .ok (s ++ r)
    else
      match render (.elem t a cs) with
      | none => .ok ""
      | some s =>
        match captureRun render hLevel rest with
        | .error e => .error e
        | .ok r => .ok (s ++ r)

/-- Embedding of the call `htmlBetweenHeadingAndNextHeading(heading,
heading)` made by `init`, parametric in the serializer: the matched
heading sits at top-level index `i`, its level is parsed as in
`headingLevel`, and the capture runs over the siblings after it.  `init`
only ever passes a heading that matched `^h[1-6]$`, for which the level
parse always succeeds; the error branches model the panics of the Go code
on any other start node. -/
def htmlBetweenHeadingAndNextHeadingR (render : Node → Option String)
    (doc : List Node) (i : Nat) : Except GoErr String :=
  match headingTagAt doc i with
  | none => .error .panic
  | some t =>
    match headingLevel t with
    | .error e => .error e
    | .ok lv => captureRun render lv (doc.drop (i + 1))

/-- The capture with the real serializer, which does not fail on the
well-formed trees produced by the normalizer. -/
def htmlBetweenHeadingAndNextHeading (doc : List Node) (i : Nat) : Except GoErr String :=
  htmlBetweenHeadingAndNextHeadingR (fun n => some (renderHTML n)) doc i

/-- Stop condition of the capture: a heading element whose parsed level
equals the matched heading's level. -/
def isStopHeading (hLevel : Int) : Node → Bool
  | .elem t _ _ =>
    isHeadingTag t &&
      (match goAtoi (t.drop 1) with
       | some lv => lv == hLevel
       | none => false)
  | .text _ => false

/-- The element siblings scanned by the capture before its boundary: the
element nodes of the list, up to (excluding) the first heading of level
equal to the matched heading's. -/
def elementsUntilBoundary (hLevel : Int) (l : List Node) : List Node :=
  (l.filter isElemNode).takeWhile (fun n => !isStopHeading hLevel n)

/-- Serialized contributions accumulated left to right, stopping at the
first sibling whose serialization fails. -/
def renderedInit (render : Node → Option String) : List Node → String
  | [] => ""
  | n :: rest =>
    match render n with
    | none => ""
    | some s => s ++ renderedInit render rest

/-- The claim's version of the range capture, for comparison: it stops at
the first following heading whose level is less than *or equal to* the
matched heading's level (the code stops only at an equal level). -/
def claimCaptureLe (hLevel : Int) : List Node → String
  | [] => ""
  | .text _ :: rest => claimCaptureLe hLevel rest
  | .elem t a cs :: rest =>
    if isHeadingTag t then
      match goAtoi (t.drop 1) with
      | some lv =>
        if lv ≤ hLevel then ""
        else renderHTML (.elem t a cs) ++ claimCaptureLe hLevel rest
      | none => renderHTML (.elem t a cs) ++ claimCaptureLe hLevel rest
    else renderHTML (.elem t a cs) ++ claimCaptureLe hLevel rest

/-- The claim's version of failure recovery, for comparison: on a failing
serialization drop only that sibling's contribution and continue the
capture with the following siblings (the code stops the whole capture
there). -/
def claimCaptureDropOnly (render : Node → Option String) (hLevel : Int) : List Node → String
  | [] => ""
  | .text _ :: rest => claimCaptureDropOnly render hLevel rest
  | .elem t a cs :: rest =>
    if isHeadingTag t then
      match goAtoi (t.drop 1) with
      | some lv =>
        if lv == hLevel then ""
        else
          match render (.elem t a cs) with
          | none => claimCaptureDropOnly render hLevel rest
          | some s => s ++ claimCaptureDropOnly render hLevel rest
      | none => ""
    else
      match render (.elem t a cs) with
      | none => claimCaptureDropOnly render hLevel rest
      | some s => s ++ claimCaptureDropOnly render hLevel rest

/-- Association of the 26 uppercase ASCII letters with their lowercase
forms, used by the slug model. -/
def upperLowerPairs : List (Char × Char) :=
  [('A','a'), ('B','b'), ('C','c'), ('D','d'), ('E','e'), ('F','f'), ('G','g'),
   ('H','h'), ('I','i'), ('J','j'), ('K','k'), ('L','l'), ('M','m'), ('N','n'),
   ('O','o'), ('P','p'), ('Q','q'), ('R','r'), ('S','s'), ('T','t'), ('U','u'),
   ('V','v'), ('W','w'), ('X','x'), ('Y','y'), ('Z','z')]

/-- First-match lookup in an association list of characters. -/
def lookupLower : List (Char × Char) → Char → Option Char
  | [], _ => none
  | (u, l) :: rest, c => if c == u then some l else lookupLower rest c

/-- ASCII lowercasing of a character. -/
def lowerChar (c : Char) : Char :=
  match lookupLower upperLowerPairs c with
  | some l => l
  | none => c

/-- Alphanumeric test used by the slug model. -/
def isAlnumChar (c : Char) : Bool := c.isAlpha || c.isDigit

/-- Modelled from the spec: the external slugifier `slugify.Marshal(s,
true)` (the `go-slugify` library is outside the provided sources).  Per
the spec, a slug is the text lowercased with every run of
non-alphanumeric characters replaced by a single hyphen: alphanumeric
characters are lowercased and kept, and each maximal run of other
characters becomes one `'-'`. -/
def slugCoreAux : Bool → List Char → List Char
  | _, [] => []
  | inRun, c :: cs =>
    if isAlnumChar c then lowerChar c :: slugCoreAux false cs
    else if inRun then slugCoreAux true cs
    else '-' :: slugCoreAux true cs

/-- Run-collapsing pass over the characters (see `slugCoreAux`: the flag
records whether the previous character already opened a hyphen run). -/
def slugCore (l : List Char) : List Char := slugCoreAux false l

/-- Leading and trailing hyphens of a slug are dropped. -/
def trimDashes (l : List Char) : List Char :=
  ((l.dropWhile (· == '-')).reverse.dropWhile (· == '-')).reverse

/-- Modelled from the spec: the full external slugifier (see
`slugCore`). -/
def slugifyMarshal (s : String) : String :=
  String.mk (trimDashes (slugCore s.data))

/-- Whether the first list is an initial segment of the second. -/
def listStartsWith : List Char → List Char → Bool
  | [], _ => true
  | _ :: _, [] => false
  | p :: ps, c :: cs => p == c && listStartsWith ps cs

/-- Matching of the regexp `^weight-%d+-title-` that `init` applies to the
derived slug — written in the source with a printf verb `%d` instead of
the character class `\d`, so it matches the literal text `weight-%`,
then one or more literal `d` characters, then `-title-`.  Returns the
remainder after the matched prefix, or `none` when the regexp does not
match. -/
def weightMarkerTail (l : List Char) : Option (List Char) :=
  if listStartsWith ['w','e','i','g','h','t','-','%'] l then
    let rest := l.drop 8
    let ds := rest.takeWhile (· == 'd')
    if 1 ≤ ds.length &&
        listStartsWith ['-','t','i','t','l','e','-'] (rest.drop ds.length) then
      some ((rest.drop ds.length).drop 7)
    else none
  else none

/-- Embedding of
`regexp.MustCompile("^weight-%d+-title-").ReplaceAllString(anchor, "")`:
the anchored match is removed when present (at most one match since the
pattern is anchored). -/
def stripWeightMarker (s : String) : String :=
  match weightMarkerTail s.data with
  | some rest => String.mk rest
  | none => s

/-- The claim's version of the stripped pattern, for comparison:
`weight-<digits>-title-` with a genuine digit run (`^weight-\d+-title-`). -/
def claimWeightTail (l : List Char) : Option (List Char) :=
  if listStartsWith ['w','e','i','g','h','t','-'] l then
    let rest := l.drop 7
    let ds := rest.takeWhile Char.isDigit
    if 1 ≤ ds.length &&
        listStartsWith ['-','t','i','t','l','e','-'] (rest.drop ds.length) then
      some ((rest.drop ds.length).drop 7)
    else none
  else none

/-- The claim's derived slug: slugified text with a leading
`weight-<digits>-title-` prefix stripped when present. -/
def claimDerivedSlugOfText (s : String) : String :=
  match claimWeightTail (slugifyMarshal (goTrimSpace s)).data with
  | some rest => String.mk rest
  | none => slugifyMarshal (goTrimSpace s)

/-- The slug the code derives from a heading's visible text:
`slugify.Marshal(strings.TrimSpace(h.Text()), true)` with the broken
weight-marker strip applied. -/
def derivedSlugOfText (s : String) : String :=
  stripWeightMarker (slugifyMarshal (goTrimSpace s))

/-- The slug the code derives from a heading node. -/
def derivedSlug (h : Node) : String :=
  derivedSlugOfText (nodeText h)

/-- The per-heading test of the `init` keyword loop: first the explicit
anchor test (`h.Attrs()["id"] == slug`), then the derived-slug test; the
loop breaks at the first heading, in enumeration order, passing either. -/
def headingMatches (slug : String) (h : Node) : Bool :=
  (h.attrsOf.lookup "id" == some slug) || (derivedSlug h == slug)

/-- Embedding of the heading enumeration of `init`: `FindAll` is called
once per tag `h1` … `h6` and the results are appended, so the list is
grouped by level — all `h1` elements in document order, then all `h2`
elements, and so on. -/
def collectHeadingsByLevel (doc : List Node) : List Node :=
  (["h1", "h2", "h3", "h4", "h5", "h6"]).foldl
    (fun acc t => acc ++ findAllList t doc) []

/-- The heading selected for a keyword slug: the first element of the
grouped enumeration passing `headingMatches`. -/
def findMatchingHeading (doc : List Node) (slug : String) : Option Node :=
  (collectHeadingsByLevel doc).find? (headingMatches slug)

mutual
/-- All heading elements (levels 1–6) in true document (pre-order) order,
for comparison with the grouped enumeration the code uses. -/
def headingsDocOrderNode : Node → List Node
  | .text _ => []
  | .elem _ _ cs => headingsDocOrderList cs

/-- Document-order heading enumeration of a sibling list. -/
def headingsDocOrderList : List Node → List Node
  | [] => []
  | n :: rest =>
    (match n with
     | .elem t _ _ => if isHeadingTag t then [n] else []
     | .text _ => []) ++ headingsDocOrderNode n ++ headingsDocOrderList rest
end

/-- The claim's version of the selection, for comparison: the first
heading in document order passing either test. -/
def claimFindMatchingHeading (doc : List Node) (slug : String) : Option Node :=
  (headingsDocOrderList doc).find? (headingMatches slug)

/-- A `th` header cell. -/
def thCell (s : String) : Node := .elem "th" [] [.text s]

/-- A `td` data cell. -/
def tdCell (s : String) : Node := .elem "td" [] [.text s]

/-- The GFM header row of a documentation table. -/
def headerRow : Node :=
  .elem "tr" [] [thCell "name", thCell "description", thCell "type", thCell "default"]

/-- A data row with the four variable cells. -/
def varRow (a b c d : String) : Node :=
  .elem "tr" [] [tdCell a, tdCell b, tdCell c, tdCell d]

/-- A documentation table in the shape goldmark emits: `thead` with the
header row, `tbody` with the data rows. -/
def tableOf (rows : List Node) : Node :=
  .elem "table" [] [.elem "thead" [] [headerRow], .elem "tbody" [] rows]

/-- Heading node of the given tag with plain text content. -/
def hNode (tag : String) (s : String) : Node := .elem tag [] [.text s]

/-- Paragraph node with plain text content. -/
def pNode (s : String) : Node := .elem "p" [] [.text s]

/-- Example document: `## General` followed by one documentation table. -/
def docGeneral : List Node :=
  [hNode "h2" "General", tableOf [varRow "foo" "does x" "bool" "0"]]

/-- Example document with a root table and a nested subsection table. -/
def docNested : List Node :=
  [hNode "h2" "General", tableOf [varRow "foo" "does x" "bool" "0"],
   hNode "h3" "sub", tableOf [varRow "bar" "does y" "int" "1"]]

/-- Example document whose single (qualifying) table has no heading
anywhere before it. -/
def docOrphan : List Node :=
  [pNode "intro", tableOf [varRow "foo" "does x" "bool" "0"]]

/-- Document for the boundary counterexample: a matched `h2` followed by
an `h1` (greater prominence), a paragraph, and another `h2`. -/
def docBoundary : List Node :=
  [hNode "h2" "A", hNode "h1" "B", pNode "x", hNode "h2" "C"]

/-- A marker element whose serialization is made to fail, standing for a
malformed subtree that makes `html.Render` panic. -/
def brokenNode : Node := .elem "broken" [] []

/-- Serializer failing exactly on `brokenNode`. -/
def brokenRender (n : Node) : Option String :=
  match n with
  | .elem "broken" _ _ => none
  | _ => some (renderHTML n)

/-- Document for the failure-recovery counterexample: matched `h2`, a good
paragraph, the failing node, another good paragraph, and the boundary. -/
def docBroken : List Node :=
  [hNode "h2" "A", pNode "x", brokenNode, pNode "y", hNode "h2" "C"]

/-- Document for the enumeration-order counterexample: an `h2` and then an
`h1`, both carrying the anchor id `x`. -/
def docTwoHeadings : List Node :=
  [.elem "h2" [("id", "x")] [.text "A"], .elem "h1" [("id", "x")] [.text "B"]]

/-- The claim's reading of the row scan: a post-header row contributes one
variable exactly when it has exactly 4 cells, the cell texts in order. -/
def claimRowVariable (row : Node) : Option VariableDefinition :=
  let cells := findAllNode "td" row
  if h : cells.length = 4 then
    some ⟨fullText (cells.get ⟨0, by omega⟩), fullText (cells.get ⟨1, by omega⟩),
          fullText (cells.get ⟨2, by omega⟩), fullText (cells.get ⟨3, by omega⟩)⟩
  else none

/-- The claim's reading of a qualifying table's variables: every
post-header row with exactly 4 cells contributes, in document order. -/
def claimTableVariables (table : Node) : List VariableDefinition :=
  ((findAllNode "tr" table).drop 1).filterMap claimRowVariable

/-- The tables of a document, in document order. -/
def topTables (doc : List Node) : List Node :=
  (tableIdxs doc).filterMap (doc.get?)

/-- Document with a matched `h2` after which no heading of equal level
ever occurs: the capture must run to the end of the document. -/
def docNoBoundary : List Node :=
  [hNode "h2" "A", pNode "x", hNode "h3" "B"]

/-- Whether the node at top-level index `i` is a qualifying
documentation table. -/
def qualifiesAt (doc : List Node) (i : Nat) : Bool :=
  match doc.get? i with
  | some table => qualifiesTable table
  | none => false

theorem isHeadingTag_level {t : String} (h : isHeadingTag t = true) :
    ∃ lv : Int, goAtoi (t.drop 1) = some lv ∧ headingLevel t = .ok lv := by
  simp only [isHeadingTag, Bool.or_eq_true, beq_iff_eq] at h
  rcases h with ((((h | h) | h) | h) | h) | h <;> subst h <;> exact ⟨_, rfl, rfl⟩

theorem captureRun_eq_renderedInit (render : Node → Option String) (hLevel : Int)
    (l : List Node) :
    captureRun render hLevel l =
      .ok (renderedInit render (elementsUntilBoundary hLevel l)) := by
  induction l with
  | nil => rfl
  | cons n rest ih =>
    cases n with
    | text s =>
      simpa [captureRun, elementsUntilBoundary, isElemNode] using ih
    | elem t a cs =>
      by_cases ht : isHeadingTag t
      · obtain ⟨lv, hg, hl⟩ := isHeadingTag_level ht
        by_cases heq : lv = hLevel
        · subst heq
          simp [captureRun, ht, hl, elementsUntilBoundary, isElemNode,
            isStopHeading, hg, renderedInit]
        · cases hr : render (.elem t a cs) with
          | none =>
            simp [captureRun, ht, hl, heq, hr, elementsUntilBoundary, isElemNode,
              isStopHeading, hg, renderedInit]
          | some s =>
            simp only [captureRun, ht, if_true, hl, hr]
            rw [ih]
            simp [elementsUntilBoundary, isElemNode, isStopHeading, hg, ht, heq,
              renderedInit, hr]
      · cases hr : render (.elem t a cs) with
        | none =>
          simp [captureRun, ht, hr, elementsUntilBoundary, isElemNode,
            isStopHeading, renderedInit]
        | some s =>
          simp only [captureRun, ht, if_false, hr]
          rw [ih]
          simp [elementsUntilBoundary, isElemNode, isStopHeading, ht,
            renderedInit, hr]

theorem renderedInit_total (l : List Node) :
    renderedInit (fun n => some (renderHTML n)) l = renderHTMLList l := by
  induction l with
  | nil => rfl
  | cons n rest ih => simp [renderedInit, renderHTMLList, ih]

/-- C1 (counterexample): on a document where the matched `h2` is followed
by an `h1` — a heading of numerically smaller level, hence of greater
prominence — the code's range capture does not stop there as the claim
says it should: it returns the `h1` and the following paragraph, while
the claim's `≤`-boundary capture returns the empty string. -/
theorem claim_C1_counterexample :
    htmlBetweenHeadingAndNextHeading docBoundary 0 = .ok "<h1>B</h1><p>x</p>" ∧
    claimCaptureLe 2 (docBoundary.drop 1) = "" ∧
    htmlBetweenHeadingAndNextHeading docBoundary 0 ≠
      .ok (claimCaptureLe 2 (docBoundary.drop 1)) := by
  refine ⟨rfl, rfl, fun h => ?_⟩
  have hs : "<h1>B</h1><p>x</p>" = "" := by
    have h2 : Except.ok (ε := GoErr) "<h1>B</h1><p>x</p>" = .ok "" := h
    exact Except.ok.inj h2
  simp at hs

/-- C1 (amended): the range capture starting at a matched heading stops at
the first following sibling that is a heading whose numeric level is
*equal* to the matched heading's level (headings of smaller level are
captured and passed over), and returns the concatenated serialized markup
of every element sibling strictly between the heading and that boundary
(or the end of the document), in document order. -/
theorem claim_C1_range_capture_boundary (doc : List Node) (i : Nat) (t : String)
    (lv : Int) (ht : headingTagAt doc i = some t) (hlv : headingLevel t = .ok lv) :
    htmlBetweenHeadingAndNextHeading doc i =
      .ok (renderHTMLList (elementsUntilBoundary lv (doc.drop (i + 1)))) := by
  unfold htmlBetweenHeadingAndNextHeading htmlBetweenHeadingAndNextHeadingR
  simp only [ht, hlv]
  rw [captureRun_eq_renderedInit, renderedInit_total]

/-- C1 (witness): the amended boundary behavior at the concrete document
`docBoundary`. -/
theorem claim_C1_witness :
    htmlBetweenHeadingAndNextHeading docBoundary 0 =
      .ok (renderHTMLList (elementsUntilBoundary 2 (docBoundary.drop 1))) :=
  claim_C1_range_capture_boundary docBoundary 0 "h2" 2 rfl rfl

/-- C4 (counterexample): when serializing the middle sibling fails, the
code's capture returns only the contributions before the failing sibling
— the paragraph after the failure is dropped — while the claim's
drop-only-that-sibling capture keeps it. -/
theorem claim_C4_counterexample :
    htmlBetweenHeadingAndNextHeadingR brokenRender docBroken 0 = .ok "<p>x</p>" ∧
    claimCaptureDropOnly brokenRender 2 (docBroken.drop 1) = "<p>x</p><p>y</p>" ∧
    htmlBetweenHeadingAndNextHeadingR brokenRender docBroken 0 ≠
      .ok (claimCaptureDropOnly brokenRender 2 (docBroken.drop 1)) := by
  refine ⟨rfl, rfl, fun h => ?_⟩
  have hs : "<p>x</p>" = "<p>x</p><p>y</p>" := by
    have h2 : Except.ok (ε := GoErr) "<p>x</p>" = .ok "<p>x</p><p>y</p>" := h
    exact Except.ok.inj h2
  simp at hs

/-- C4 (amended): a failing serialization never aborts the capture with an
error, but it ends it: the capture returns the accumulated contributions
of the siblings before the first failing one — the failing sibling's
contribution *and those of every sibling after it* are dropped. -/
theorem claim_C4_capture_stops_at_failure (render : Node → Option String)
    (doc : List Node) (i : Nat) (t : String) (lv : Int)
    (ht : headingTagAt doc i = some t) (hlv : headingLevel t = .ok lv) :
    htmlBetweenHeadingAndNextHeadingR render doc i =
      .ok (renderedInit render (elementsUntilBoundary lv (doc.drop (i + 1)))) := by
  unfold htmlBetweenHeadingAndNextHeadingR
  simp only [ht, hlv]
  exact captureRun_eq_renderedInit render lv (doc.drop (i + 1))

/-- C4 (witness): the amended failure behavior at the concrete document
`docBroken` with the failing serializer. -/
theorem claim_C4_witness :
    htmlBetweenHeadingAndNextHeadingR brokenRender docBroken 0 =
      .ok (renderedInit brokenRender (elementsUntilBoundary 2 (docBroken.drop 1))) :=
  claim_C4_capture_stops_at_failure brokenRender docBroken 0 "h2" 2 rfl rfl

/-- C10 (confirmed): when no heading of level equal to the matched
heading's occurs among the following siblings, the capture still
terminates and returns the serialized markup of every element sibling
between the heading and the end of the document. -/
theorem claim_C10_capture_runs_to_document_end (doc : List Node) (i : Nat)
    (t : String) (lv : Int) (ht : headingTagAt doc i = some t)
    (hlv : headingLevel t = .ok lv)
    (hnb : ∀ n ∈ doc.drop (i + 1), isStopHeading lv n = false) :
    htmlBetweenHeadingAndNextHeading doc i =
      .ok (renderHTMLList ((doc.drop (i + 1)).filter isElemNode)) := by
  unfold htmlBetweenHeadingAndNextHeading htmlBetweenHeadingAndNextHeadingR
  simp only [ht, hlv]
  rw [captureRun_eq_renderedInit, renderedInit_total]
  have hall : (doc.drop (i + 1)).filter isElemNode =
      elementsUntilBoundary lv (doc.drop (i + 1)) := by
    unfold elementsUntilBoundary
    rw [List.takeWhile_eq_self_iff.mpr]
    intro x hx
    have hm := List.mem_of_mem_filter hx
    simp [hnb x hm]
  rw [hall]

/-- C10 (witness): the capture over `docNoBoundary`, which has no
equal-level boundary heading after the matched one. -/
theorem claim_C10_witness :
    htmlBetweenHeadingAndNextHeading docNoBoundary 0 =
      .ok (renderHTMLList ((docNoBoundary.drop 1).filter isElemNode)) :=
  claim_C10_capture_runs_to_document_end docNoBoundary 0 "h2" 2 rfl rfl (by decide)

/-- C2 (counterexample): in a document containing an `h2` and then an
`h1`, both carrying the anchor id the keyword looks for, the code selects
the `h1` — which comes *later* in document order — because the enumeration
appends all `h1` elements before all `h2` elements; the claim's
document-order selection picks the `h2`. -/
theorem claim_C2_counterexample :
    (findMatchingHeading docTwoHeadings "x").map Node.tagOf = some "h1" ∧
    (claimFindMatchingHeading docTwoHeadings "x").map Node.tagOf = some "h2" ∧
    findMatchingHeading docTwoHeadings "x" ≠ claimFindMatchingHeading docTwoHeadings "x" := by
  refine ⟨rfl, rfl, fun h => ?_⟩
  have h2 : (some "h1" : Option String) = some "h2" := by
    calc (some "h1" : Option String)
        = (findMatchingHeading docTwoHeadings "x").map Node.tagOf := rfl
      _ = (claimFindMatchingHeading docTwoHeadings "x").map Node.tagOf := by rw [h]
      _ = some "h2" := rfl
  simp at h2

/-- C2 (amended): the extractor enumerates the headings grouped by level —
all `h1` elements in document order, then all `h2` elements, and so on
through `h6` — and selects the first heading *of that grouped enumeration*
for which the anchor-id test or the derived-slug test succeeds; every
heading earlier in the grouped enumeration fails both tests.  Document
order is respected only within a single level. -/
theorem claim_C2_first_match_in_grouped_order (doc : List Node) (slug : String)
    (h : Node) (hf : findMatchingHeading doc slug = some h) :
    headingMatches slug h = true ∧
    ∃ pre post, collectHeadingsByLevel doc = pre ++ h :: post ∧
      ∀ x ∈ pre, headingMatches slug x = false := by
  unfold findMatchingHeading at hf
  obtain ⟨hp, pre, post, heq, hall⟩ := List.find?_eq_some.mp hf
  exact ⟨hp, pre, post, heq, fun x hx => by simpa using hall x hx⟩

/-- C2 (witness): the grouped-order selection at the concrete document
`docTwoHeadings`. -/
theorem claim_C2_witness :
    headingMatches "x" (Node.elem "h1" [("id", "x")] [.text "B"]) = true ∧
    ∃ pre post,
      collectHeadingsByLevel docTwoHeadings =
        pre ++ (Node.elem "h1" [("id", "x")] [.text "B"]) :: post ∧
      ∀ x ∈ pre, headingMatches "x" x = false :=
  claim_C2_first_match_in_grouped_order docTwoHeadings "x"
    (Node.elem "h1" [("id", "x")] [.text "B"]) rfl

theorem lookupLower_mem {ps : List (Char × Char)} {c d : Char}
    (h : lookupLower ps c = some d) : d ∈ ps.map Prod.snd := by
  induction ps with
  | nil => simp [lookupLower] at h
  | cons p rest ih =>
    obtain ⟨u, l⟩ := p
    simp only [lookupLower] at h
    split at h
    · cases h; simp
    · simpa using Or.inr (ih h)

theorem lowerChar_ne_percent {c : Char} (h : isAlnumChar c = true) :
    lowerChar c ≠ '%' := by
  unfold lowerChar
  cases hl : lookupLower upperLowerPairs c with
  | some d =>
    have hd := lookupLower_mem hl
    have hall : ∀ x ∈ upperLowerPairs.map Prod.snd, x ≠ '%' := by decide
    exact hall d hd
  | none =>
    intro heq
    subst heq
    exact absurd h (by decide)

theorem slugCoreAux_no_percent (b : Bool) (l : List Char) : '%' ∉ slugCoreAux b l := by
  induction l generalizing b with
  | nil => simp [slugCoreAux]
  | cons c cs ih =>
    by_cases hc : isAlnumChar c
    · simp only [slugCoreAux, hc, if_true, List.mem_cons]
      rintro (heq | hm)
      · exact lowerChar_ne_percent hc heq.symm
      · exact ih false hm
    · rw [show slugCoreAux b (c :: cs) =
          (if isAlnumChar c then lowerChar c :: slugCoreAux false cs
           else if b then slugCoreAux true cs else '-' :: slugCoreAux true cs) from rfl,
        if_neg hc]
      split
      · exact ih true
      · intro hmem
        rcases List.mem_cons.mp hmem with heq | hm
        · exact absurd heq (by decide)
        · exact ih true hm

theorem mem_of_mem_trimDashes {c : Char} {l : List Char} (h : c ∈ trimDashes l) :
    c ∈ l := by
  unfold trimDashes at h
  rw [List.mem_reverse] at h
  have h1 := (List.dropWhile_sublist _).subset h
  rw [List.mem_reverse] at h1
  exact (List.dropWhile_sublist _).subset h1

theorem mem_of_listStartsWith : ∀ {ps l : List Char},
    listStartsWith ps l = true → ∀ c ∈ ps, c ∈ l := by
  intro ps
  induction ps with
  | nil => simp
  | cons p ps ih =>
    intro l h c hc
    cases l with
    | nil => simp [listStartsWith] at h
    | cons x xs =>
      simp only [listStartsWith, Bool.and_eq_true, beq_iff_eq] at h
      obtain ⟨rfl, h2⟩ := h
      rcases List.mem_cons.mp hc with rfl | hc2
      · exact List.mem_cons_self _ _
      · exact List.mem_cons_of_mem _ (ih h2 c hc2)

theorem stripWeightMarker_of_no_percent {s : String} (h : '%' ∉ s.data) :
    stripWeightMarker s = s := by
  cases hsw : listStartsWith ['w', 'e', 'i', 'g', 'h', 't', '-', '%'] s.data with
  | false => simp [stripWeightMarker, weightMarkerTail, hsw]
  | true => exact absurd (mem_of_listStartsWith hsw '%' (by decide)) h

/-- C3 (counterexample): the code never strips the weight prefix — its
regexp `^weight-%d+-title-` contains a literal `%` (a printf-verb slip
for `\d`) and slugified text never contains `%` — so on the slugified
text `weight-3-title-foo` the claim's derivation yields `foo` while the
code's yields `weight-3-title-foo`; and the claim's own example heading
text `"Weight: 3 — My Thing"` derives `weight-3-my-thing`, not
`my-thing` (no `title` token ever appears in its slug). -/
theorem claim_C3_counterexample :
    derivedSlug (hNode "h2" "Weight: 3 — My Thing") = "weight-3-my-thing" ∧
    derivedSlug (hNode "h2" "Weight: 3 — My Thing") ≠ "my-thing" ∧
    derivedSlugOfText "Weight 3 Title Foo" = "weight-3-title-foo" ∧
    claimDerivedSlugOfText "Weight 3 Title Foo" = "foo" ∧
    derivedSlugOfText "Weight 3 Title Foo" ≠
      claimDerivedSlugOfText "Weight 3 Title Foo" := by
  refine ⟨by decide, by decide, by decide, by decide, by decide⟩

/-- C3 (amended): the slug the code derives from a heading's visible text
is exactly the slugified trimmed text — lowercased, runs of
non-alphanumeric characters collapsed to single hyphens, hyphens trimmed —
with *no* prefix ever stripped: the strip regexp `^weight-%d+-title-`
(literal `%`, literal `d`s) cannot match a slug, which never contains
`%`.  In particular `"Weight: 3 — My Thing"` derives
`"weight-3-my-thing"`. -/
theorem claim_C3_derived_slug (s : String) :
    derivedSlugOfText s = slugifyMarshal (goTrimSpace s) ∧
    derivedSlugOfText "Weight: 3 — My Thing" = "weight-3-my-thing" := by
  constructor
  · unfold derivedSlugOfText
    apply stripWeightMarker_of_no_percent
    intro hm
    exact slugCoreAux_no_percent false _ (mem_of_mem_trimDashes hm)
  · decide

theorem headingTagAt_isHeading {doc : List Node} {i : Nat} {t : String}
    (h : headingTagAt doc i = some t) : isHeadingTag t = true := by
  unfold headingTagAt at h
  split at h
  · split at h
    · cases h; assumption
    · cases h
  · cases h

/-- C9 (confirmed): whenever the backward sibling walk
(`backtrackToNearestHeader`) returns an element, that element is a heading
whose tag matches `^h[1-6]$`; consequently the integer conversion of the
tag's level digit (`strconv.Atoi(tag[1:])`, used by both the path resolver
and the `headingLevel` helper) succeeds, and their panic branches are
unreachable for any element the walk returns. -/
theorem claim_C9_backtrack_returns_heading (doc : List Node) (i h : Nat)
    (hb : backtrackToNearestHeader doc i = .ok h) :
    ∃ t, headingTagAt doc h = some t ∧ isHeadingTag t = true ∧
      ∃ lv : Int, goAtoi (t.drop 1) = some lv ∧ headingLevel t = .ok lv := by
  induction i with
  | zero =>
    simp only [backtrackToNearestHeader] at hb
    cases ht : headingTagAt doc 0 with
    | some t =>
      rw [ht] at hb
      cases hb
      exact ⟨t, ht, headingTagAt_isHeading ht,
        isHeadingTag_level (headingTagAt_isHeading ht)⟩
    | none => rw [ht] at hb; exact (Except.noConfusion hb)
  | succ j ih =>
    simp only [backtrackToNearestHeader] at hb
    cases ht : headingTagAt doc (j + 1) with
    | some t =>
      rw [ht] at hb
      cases hb
      exact ⟨t, ht, headingTagAt_isHeading ht,
        isHeadingTag_level (headingTagAt_isHeading ht)⟩
    | none => rw [ht] at hb; exact ih hb

/-- C9 (witness): the walk from the table of `docGeneral` returns the
`h2` heading at index 0, whose level parses. -/
theorem claim_C9_witness :
    ∃ t, headingTagAt docGeneral 0 = some t ∧ isHeadingTag t = true ∧
      ∃ lv : Int, goAtoi (t.drop 1) = some lv ∧ headingLevel t = .ok lv :=
  claim_C9_backtrack_returns_heading docGeneral 1 0 rfl

theorem tablePathAux_error_of_backtrack_error (doc : List Node) (L : Int) :
    ∀ (i : Nat) (acc : List String),
      backtrackToNearestHeader doc i = .error .panic →
      tablePathAux doc L i acc = .error .panic := by
  intro i
  induction i with
  | zero =>
    intro acc hb
    simp only [backtrackToNearestHeader] at hb
    cases ht : headingTagAt doc 0 with
    | some t => rw [ht] at hb; exact (Except.noConfusion hb)
    | none => simp only [tablePathAux, ht]
  | succ j ih =>
    intro acc hb
    simp only [backtrackToNearestHeader] at hb
    cases ht : headingTagAt doc (j + 1) with
    | some t => rw [ht] at hb; exact (Except.noConfusion hb)
    | none =>
      rw [ht] at hb
      simp only [tablePathAux, ht]
      exact ih acc hb

theorem sectionForTable_error_of_backtrack_error (doc : List Node) (L : Int) (i : Nat)
    (hq : qualifiesAt doc i = true)
    (hb : backtrackToNearestHeader doc i = .error .panic) :
    sectionForTable doc L i = .error .panic := by
  unfold qualifiesAt at hq
  unfold sectionForTable
  cases hg : doc.get? i with
  | none => rw [hg] at hq; cases hq
  | some table =>
    simp only [hg] at hq
    have hp : tablePath doc L i = .error .panic := by
      unfold tablePath
      exact tablePathAux_error_of_backtrack_error doc L i [] hb
    simp only [hg, hq, if_true, hp]

theorem sectionsOfTablesAux_error (doc : List Node) (L : Int) :
    ∀ (is : List Nat) (i : Nat), i ∈ is → sectionForTable doc L i = .error .panic →
      sectionsOfTablesAux doc L is = .error .panic := by
  intro is
  induction is with
  | nil => intro i h; cases h
  | cons j rest ih =>
    intro i hmem herr
    rcases List.mem_cons.mp hmem with rfl | hmem2
    · simp only [sectionsOfTablesAux, herr]
    · simp only [sectionsOfTablesAux]
      cases hj : sectionForTable doc L j with
      | error e => cases e; rfl
      | ok o =>
        cases o with
        | none => exact ih i hmem2 herr
        | some s => rw [ih i hmem2 herr]

/-- C6 (confirmed): when a qualifying table has no heading anywhere among
the siblings before it — the backward sibling walk fails — the whole
extraction pass fails: `parseDocumentationMarkdown` produces an error
(the Go panic), not a partial section list, and the failure is not a
per-table skip. -/
theorem claim_C6_orphan_table_aborts (doc : List Node) (L : Int) (i : Nat)
    (hmem : i ∈ tableIdxs doc) (hq : qualifiesAt doc i = true)
    (hb : backtrackToNearestHeader doc i = .error .panic) :
    parseDocumentationMarkdown doc L = .error .panic := by
  have h1 := sectionForTable_error_of_backtrack_error doc L i hq hb
  have h2 := sectionsOfTablesAux_error doc L (tableIdxs doc) i hmem h1
  unfold parseDocumentationMarkdown sectionsOfTables
  rw [h2]

/-- C6 (witness): the orphan-table document `docOrphan` makes the whole
pass fail. -/
theorem claim_C6_witness : parseDocumentationMarkdown docOrphan 2 = .error .panic :=
  claim_C6_orphan_table_aborts docOrphan 2 1 (by decide) (by decide) rfl

theorem rowVariables_eq_filterMap (rows : List Node) :
    rowVariables rows = rows.filterMap claimRowVariable := by
  induction rows with
  | nil => rfl
  | cons row rest ih =>
    rw [List.filterMap_cons]
    unfold rowVariables
    cases hc : findAllNode "td" row with
    | nil => simp [claimRowVariable, hc, ih]
    | cons c0 r0 =>
      cases r0 with
      | nil => simp [claimRowVariable, hc, ih]
      | cons c1 r1 =>
        cases r1 with
        | nil => simp [claimRowVariable, hc, ih]
        | cons c2 r2 =>
          cases r2 with
          | nil => simp [claimRowVariable, hc, ih]
          | cons c3 r3 =>
            cases r3 with
            | nil => simp [claimRowVariable, hc, ih]
            | cons c4 r4 =>
              have hlen : ¬(findAllNode "td" row).length = 4 := by
                rw [hc]; simp
              simp [claimRowVariable, hc, ih, dif_neg hlen]

theorem tableVariables_ok {t : Node} {vars : List VariableDefinition}
    (h : tableVariables t = .ok vars) : vars = claimTableVariables t := by
  unfold tableVariables at h
  cases htr : findAllNode "tr" t with
  | nil => rw [htr] at h; exact (Except.noConfusion h)
  | cons r rows =>
    rw [htr] at h
    cases h
    unfold claimTableVariables
    rw [htr, List.drop_one, List.tail_cons]
    exact rowVariables_eq_filterMap rows

theorem arraysEqual_expected_iff (a : List String) :
    arraysEqual a expectedHeader = true ↔ a.map goTrimSpace = expectedHeader := by
  have hn : goTrimSpace "name" = "name" := rfl
  have hd : goTrimSpace "description" = "description" := rfl
  have ht : goTrimSpace "type" = "type" := rfl
  have hf : goTrimSpace "default" = "default" := rfl
  cases a with
  | nil => simp [arraysEqual, expectedHeader]
  | cons a0 r0 =>
    cases r0 with
    | nil => simp [arraysEqual, expectedHeader]
    | cons a1 r1 =>
      cases r1 with
      | nil => simp [arraysEqual, expectedHeader]
      | cons a2 r2 =>
        cases r2 with
        | nil => simp [arraysEqual, expectedHeader]
        | cons a3 r3 =>
          cases r3 with
          | nil =>
            simp [arraysEqual, expectedHeader, List.zip, List.zipWith, hn, hd, ht, hf]
          | cons a4 r4 => simp [arraysEqual, expectedHeader]

theorem sectionsOfTablesAux_spec (doc : List Node) (L : Int) :
    ∀ (is : List Nat) (secs : List SectionDefinition),
      sectionsOfTablesAux doc L is = .ok secs →
      secs.length = ((is.filterMap doc.get?).countP qualifiesTable) ∧
      secs.map SectionDefinition.Variables =
        (((is.filterMap doc.get?).filter qualifiesTable).map claimTableVariables) := by
  intro is
  induction is with
  | nil =>
    intro secs h
    cases h
    simp
  | cons i rest ih =>
    intro secs h
    simp only [sectionsOfTablesAux] at h
    rw [List.filterMap_cons]
    cases hg : doc.get? i with
    | none =>
      rw [show sectionForTable doc L i = .ok none by unfold sectionForTable; rw [hg]] at h
      exact ih secs h
    | some table =>
      cases hqt : qualifiesTable table with
      | false =>
        rw [show sectionForTable doc L i = .ok none by
          unfold sectionForTable; rw [hg]; simp [hqt]] at h
        obtain ⟨h1, h2⟩ := ih secs h
        refine ⟨?_, ?_⟩
        · rw [h1, List.countP_cons, hqt]
          simp
        · rw [h2, List.filter_cons, hqt]
          simp
      | true =>
        cases hp : tablePath doc L i with
        | error e =>
          rw [show sectionForTable doc L i = .error e by
            unfold sectionForTable; rw [hg]; simp [hqt, hp]] at h
          exact (Except.noConfusion h)
        | ok path =>
          cases hv : tableVariables table with
          | error e =>
            rw [show sectionForTable doc L i = .error e by
              unfold sectionForTable; rw [hg]; simp [hqt, hp, hv]] at h
            exact (Except.noConfusion h)
          | ok vars =>
            rw [show sectionForTable doc L i = .ok (some (.mk path vars [])) by
              unfold sectionForTable; rw [hg]; simp [hqt, hp, hv]] at h
            cases haux : sectionsOfTablesAux doc L rest with
            | error e => rw [haux] at h; exact (Except.noConfusion h)
            | ok r =>
              rw [haux] at h
              cases h
              obtain ⟨h1, h2⟩ := ih r haux
              refine ⟨?_, ?_⟩
              · rw [List.countP_cons, hqt]
                simp [h1]
              · rw [List.filter_cons, hqt]
                simp only [if_true, List.map_cons, List.map_cons]
                rw [← h2]
                simp [SectionDefinition.Variables, tableVariables_ok hv]

/-- C5 (confirmed): over the tables of a document, a table yields exactly
one Section iff its trimmed header cells equal
`["name","description","type","default"]` in order, and otherwise yields
none: when the pass succeeds, the number of sections equals the number of
qualifying tables, the sections' variable lists are exactly — table by
table, in document order — the variables of the qualifying tables, and a
qualifying table's variables are one `VariableDefinition` per post-header
row with exactly 4 cells, the 4 cell texts becoming
`Name, Description, Type, Default` in that order, rows with a different
cell count being skipped individually. -/
theorem claim_C5_table_sections (doc : List Node) (L : Int)
    (secs : List SectionDefinition) (h : sectionsOfTables doc L = .ok secs) :
    secs.length = ((topTables doc).countP qualifiesTable) ∧
    secs.map SectionDefinition.Variables =
      ((topTables doc).filter qualifiesTable).map claimTableVariables ∧
    ∀ t, qualifiesTable t = true ↔ (tableHeaderCells t).map goTrimSpace = expectedHeader := by
  obtain ⟨h1, h2⟩ := sectionsOfTablesAux_spec doc L (tableIdxs doc) secs h
  exact ⟨h1, h2, fun t => arraysEqual_expected_iff (tableHeaderCells t)⟩

/-- C5 (witness): the correspondence at the concrete document
`docGeneral`. -/
theorem claim_C5_witness :
    ([SectionDefinition.mk ["General"] [⟨"foo", "does x", "bool", "0"⟩] []].length =
      ((topTables docGeneral).countP qualifiesTable)) ∧
    ([SectionDefinition.mk ["General"] [⟨"foo", "does x", "bool", "0"⟩] []].map
        SectionDefinition.Variables =
      ((topTables docGeneral).filter qualifiesTable).map claimTableVariables) ∧
    ∀ t, qualifiesTable t = true ↔ (tableHeaderCells t).map goTrimSpace = expectedHeader :=
  claim_C5_table_sections docGeneral 2
    [SectionDefinition.mk ["General"] [⟨"foo", "does x", "bool", "0"⟩] []] rfl

@[simp] theorem SectionDefinition.Path_mk (p : List String)
    (v : List VariableDefinition) (s : List SectionDefinition) :
    (SectionDefinition.mk p v s).Path = p := rfl

@[simp] theorem SectionDefinition.Variables_mk (p : List String)
    (v : List VariableDefinition) (s : List SectionDefinition) :
    (SectionDefinition.mk p v s).Variables = v := rfl

@[simp] theorem SectionDefinition.Subsections_mk (p : List String)
    (v : List VariableDefinition) (s : List SectionDefinition) :
    (SectionDefinition.mk p v s).Subsections = s := rfl

theorem tablePathAux_ok_nonempty (doc : List Node) (L : Int) :
    ∀ (i : Nat) (acc p : List String), tablePathAux doc L i acc = .ok p → p ≠ [] := by
  intro i
  induction i with
  | zero =>
    intro acc p h
    simp only [tablePathAux] at h
    cases ht : headingTagAt doc 0 with
    | none => simp only [ht] at h; exact (Except.noConfusion h)
    | some t =>
      simp only [ht] at h
      cases ha : goAtoi (t.drop 1) with
      | none => simp only [ha] at h; exact (Except.noConfusion h)
      | some lv =>
        simp only [ha] at h
        by_cases hle : lv ≤ L
        · rw [if_pos hle] at h; cases h; simp
        · rw [if_neg hle] at h; exact (Except.noConfusion h)
  | succ j ih =>
    intro acc p h
    simp only [tablePathAux] at h
    cases ht : headingTagAt doc (j + 1) with
    | none => simp only [ht] at h; exact ih acc p h
    | some t =>
      simp only [ht] at h
      cases ha : goAtoi (t.drop 1) with
      | none => simp only [ha] at h; exact (Except.noConfusion h)
      | some lv =>
        simp only [ha] at h
        by_cases hle : lv ≤ L
        · rw [if_pos hle] at h; cases h; simp
        · rw [if_neg hle] at h
          exact ih (fullTextAt doc (j + 1) :: acc) p h

theorem sectionsOfTablesAux_flat (doc : List Node) (L : Int) :
    ∀ (is : List Nat) (secs : List SectionDefinition),
      sectionsOfTablesAux doc L is = .ok secs →
      ∀ s ∈ secs, s.Subsections = [] ∧ s.Path ≠ [] := by
  intro is
  induction is with
  | nil => intro secs h; cases h; intro s hs; cases hs
  | cons i rest ih =>
    intro secs h
    simp only [sectionsOfTablesAux] at h
    cases hs : sectionForTable doc L i with
    | error e => rw [hs] at h; exact (Except.noConfusion h)
    | ok o =>
      rw [hs] at h
      cases o with
      | none => exact ih secs h
      | some s0 =>
        cases haux : sectionsOfTablesAux doc L rest with
        | error e => rw [haux] at h; exact (Except.noConfusion h)
        | ok r =>
          rw [haux] at h
          cases h
          intro s hsmem
          rcases List.mem_cons.mp hsmem with rfl | hmem2
          · -- s0 comes from sectionForTable: dissect hs
            unfold sectionForTable at hs
            cases hg : doc.get? i with
            | none => simp only [hg] at hs; cases hs
            | some table =>
              simp only [hg] at hs
              by_cases hqt : qualifiesTable table
              · rw [if_pos hqt] at hs
                cases hp : tablePath doc L i with
                | error e => simp only [hp] at hs; exact (Except.noConfusion hs)
                | ok path =>
                  simp only [hp] at hs
                  cases hv : tableVariables table with
                  | error e => simp only [hv] at hs; exact (Except.noConfusion hs)
                  | ok vars =>
                    simp only [hv] at hs
                    cases hs
                    refine ⟨rfl, ?_⟩
                    exact tablePathAux_ok_nonempty doc L i [] path hp
              · rw [if_neg hqt] at hs; cases hs
          · exact ih r haux s hmem2

theorem parse_flat_structure (doc : List Node) (L : Int)
    (secs : List SectionDefinition)
    (h : parseDocumentationMarkdown doc L = .ok secs) :
    ∃ flat, sectionsOfTables doc L = .ok flat ∧ secs = attachPass flat ∧
      ∀ s ∈ flat, s.Subsections = [] ∧ s.Path ≠ [] := by
  unfold parseDocumentationMarkdown at h
  cases hf : sectionsOfTables doc L with
  | error e => rw [hf] at h; exact (Except.noConfusion h)
  | ok flat =>
    rw [hf] at h
    cases h
    exact ⟨flat, rfl, rfl, sectionsOfTablesAux_flat doc L (tableIdxs doc) flat hf⟩

/-- C8 (confirmed): in every section list the extractor produces, only
sections with a path of length 1 own a non-empty subsection list, every
section attached as a subsection under a root `R` has a path longer
than 1 whose first component equals `R`'s first path component, and the
subsections are a sublist of the flat extraction list — they appear in
document order. -/
theorem claim_C8_subsection_invariants (doc : List Node) (L : Int)
    (secs : List SectionDefinition) (h : parseDocumentationMarkdown doc L = .ok secs) :
    ∃ flat, sectionsOfTables doc L = .ok flat ∧
      ∀ s ∈ secs,
        (s.Path.length ≠ 1 → s.Subsections = []) ∧
        (∀ sub ∈ s.Subsections,
          sub.Path.length > 1 ∧ sub.Path.head? = s.Path.head?) ∧
        s.Subsections.Sublist flat := by
  obtain ⟨flat, hf, rfl, hflat⟩ := parse_flat_structure doc L secs h
  refine ⟨flat, hf, ?_⟩
  intro s hs
  obtain ⟨s0, hs0, rfl⟩ := List.mem_map.mp hs
  by_cases hlen : s0.Path.length == 1
  · have hlen1 : s0.Path.length = 1 := by simpa using hlen
    rw [if_pos hlen]
    obtain ⟨a, ha⟩ := List.length_eq_one.mp hlen1
    have hname : SectionDefinition.Name s0 = a := by
      unfold SectionDefinition.Name
      rw [ha]
      rfl
    refine ⟨?_, ?_, ?_⟩
    · intro hne
      exact absurd (by simp [SectionDefinition.AttachSubsections, hlen1]) hne
    · intro sub hsub
      simp only [SectionDefinition.AttachSubsections, SectionDefinition.Subsections_mk] at hsub
      obtain ⟨hsubf, hpred⟩ := List.mem_filter.mp hsub
      have hpath := (hflat sub hsubf).2
      simp only [Bool.and_eq_true, Bool.not_eq_true', beq_eq_false_iff_ne, ne_eq,
        beq_iff_eq] at hpred
      obtain ⟨hne1, hhead⟩ := hpred
      rw [hname] at hhead
      constructor
      · have h0 : sub.Path.length ≠ 0 := fun h0 => hpath (List.length_eq_zero.mp h0)
        omega
      · cases hsp : sub.Path with
        | nil => exact absurd hsp hpath
        | cons b tl =>
          rw [hsp] at hhead
          simp only [List.head?_cons, Option.getD_some] at hhead
          simp only [SectionDefinition.AttachSubsections, SectionDefinition.Path_mk, hsp, ha]
          simp [hhead]
    · simp only [SectionDefinition.AttachSubsections, SectionDefinition.Subsections_mk]
      exact List.filter_sublist flat
  · rw [if_neg hlen]
    have hsub0 := (hflat s0 hs0).1
    refine ⟨fun _ => hsub0, ?_, ?_⟩
    · intro sub hsub
      rw [hsub0] at hsub
      cases hsub
    · rw [hsub0]
      exact List.nil_sublist flat

/-- C8 (witness): the invariants at the concrete document `docNested`. -/
theorem claim_C8_witness :
    ∃ flat, sectionsOfTables docNested 2 = .ok flat ∧
      ∀ s ∈ [SectionDefinition.mk ["General"] [⟨"foo", "does x", "bool", "0"⟩]
                [.mk ["General", "sub"] [⟨"bar", "does y", "int", "1"⟩] []],
             SectionDefinition.mk ["General", "sub"] [⟨"bar", "does y", "int", "1"⟩] []],
        (s.Path.length ≠ 1 → s.Subsections = []) ∧
        (∀ sub ∈ s.Subsections,
          sub.Path.length > 1 ∧ sub.Path.head? = s.Path.head?) ∧
        s.Subsections.Sublist flat :=
  claim_C8_subsection_invariants docNested 2 _ rfl

theorem parse_paths_nonempty (doc : List Node) (L : Int)
    (secs : List SectionDefinition) (h : parseDocumentationMarkdown doc L = .ok secs) :
    ∀ s ∈ secs, s.Path ≠ [] ∧ ∀ b ∈ s.Subsections, b.Path ≠ [] := by
  obtain ⟨flat, hf, rfl, hflat⟩ := parse_flat_structure doc L secs h
  intro s hs
  obtain ⟨s0, hs0, rfl⟩ := List.mem_map.mp hs
  by_cases hlen : s0.Path.length == 1
  · rw [if_pos hlen]
    constructor
    · simp only [SectionDefinition.AttachSubsections, SectionDefinition.Path_mk]
      exact (hflat s0 hs0).2
    · intro b hb
      simp only [SectionDefinition.AttachSubsections,
        SectionDefinition.Subsections_mk] at hb
      exact (hflat b (List.mem_filter.mp hb).1).2
  · rw [if_neg hlen]
    refine ⟨(hflat s0 hs0).2, fun b hb => ?_⟩
    rw [(hflat s0 hs0).1] at hb
    cases hb

theorem setHead_of_ne_nil {p : List String} (name : String) (h : p ≠ []) :
    setHead name p = name :: p.tail := by
  cases p with
  | nil => exact absurd rfl h
  | cons a tl => rfl

theorem forall₂_rename_subs (name : String) (l : List SectionDefinition)
    (hl : ∀ b ∈ l, b.Path ≠ []) :
    List.Forall₂ (fun b b2 =>
      b2.Path = name :: b.Path.tail ∧ b2.Variables = b.Variables ∧
      b2.Subsections = b.Subsections) l
      (l.map (fun sub =>
        SectionDefinition.mk (setHead name sub.Path) sub.Variables sub.Subsections)) := by
  induction l with
  | nil => exact List.Forall₂.nil
  | cons b rest ih =>
    refine List.Forall₂.cons ⟨?_, rfl, rfl⟩
      (ih (fun x hx => hl x (List.mem_cons_of_mem _ hx)))
    simp only [SectionDefinition.Path_mk]
    exact setHead_of_ne_nil name (hl b (List.mem_cons_self _ _))

theorem forall₂_rename (name : String) (l : List SectionDefinition)
    (hl : ∀ s ∈ l, s.Path ≠ [] ∧ ∀ b ∈ s.Subsections, b.Path ≠ []) :
    List.Forall₂ (fun s s2 =>
      s2.Path = name :: s.Path.tail ∧ s2.Variables = s.Variables ∧
      List.Forall₂ (fun b b2 =>
        b2.Path = name :: b.Path.tail ∧ b2.Variables = b.Variables ∧
        b2.Subsections = b.Subsections) s.Subsections s2.Subsections) l
      (l.map (renameRootIn name)) := by
  induction l with
  | nil => exact List.Forall₂.nil
  | cons s rest ih =>
    obtain ⟨hp, hsubs⟩ := hl s (List.mem_cons_self _ _)
    refine List.Forall₂.cons ⟨?_, rfl, ?_⟩
      (ih (fun x hx => hl x (List.mem_cons_of_mem _ hx)))
    · simp only [renameRootIn, SectionDefinition.Path_mk]
      exact setHead_of_ne_nil name hp
    · simp only [renameRootIn, SectionDefinition.Subsections_mk]
      exact forall₂_rename_subs name s.Subsections hsubs

/-- C7 (confirmed): the root-rename parse returns the same section list as
the plain parse except that every section's first path component —
including the first path component of every section attached inside a
root's subsections, which the Go assignment reaches through the shared
slice backing array — equals the override string, with all other fields
(the remaining path components, the variables, and the subsection
structure) unchanged. -/
theorem claim_C7_root_rename (doc : List Node) (L : Int) (name : String)
    (secs : List SectionDefinition) (h : parseDocumentationMarkdown doc L = .ok secs) :
    ∃ secs2, parseDocumentationMarkdownWithRootSectionName doc L name = .ok secs2 ∧
      List.Forall₂ (fun s s2 =>
        s2.Path = name :: s.Path.tail ∧ s2.Variables = s.Variables ∧
        List.Forall₂ (fun b b2 =>
          b2.Path = name :: b.Path.tail ∧ b2.Variables = b.Variables ∧
          b2.Subsections = b.Subsections) s.Subsections s2.Subsections) secs secs2 := by
  refine ⟨secs.map (renameRootIn name), ?_, ?_⟩
  · unfold parseDocumentationMarkdownWithRootSectionName
    rw [h]
  · exact forall₂_rename name secs (parse_paths_nonempty doc L secs h)

/-- C7 (witness): the rename at the concrete document `docNested` with
override `"Master"`. -/
theorem claim_C7_witness :
    ∃ secs2,
      parseDocumentationMarkdownWithRootSectionName docNested 2 "Master" = .ok secs2 ∧
      List.Forall₂ (fun s s2 =>
        s2.Path = "Master" :: s.Path.tail ∧ s2.Variables = s.Variables ∧
        List.Forall₂ (fun b b2 =>
          b2.Path = "Master" :: b.Path.tail ∧ b2.Variables = b.Variables ∧
          b2.Subsections = b.Subsections) s.Subsections s2.Subsections)
        [SectionDefinition.mk ["General"] [⟨"foo", "does x", "bool", "0"⟩]
            [.mk ["General", "sub"] [⟨"bar", "does y", "int", "1"⟩] []],
         SectionDefinition.mk ["General", "sub"] [⟨"bar", "does y", "int", "1"⟩] []]
        secs2 :=
  claim_C7_root_rename docNested 2 "Master" _ rfl
